import Mathlib

/-!
# Verification of the `pubsub.ts` publish/subscribe store

A shallow embedding of `src/pubsub.ts` (the `PubSub` class) together with
models of its two collaborators, the `common.Subber` subscriber registry and
the `entry.Entry` per-key entry, whose sources are not part of the
repository and are therefore modelled from the specification (§4.1, §4.2).

JavaScript objects used as string-keyed maps are embedded as
insertion-ordered association lists: assigning to a present key updates the
value in place, assigning to an absent key appends, `delete` removes, and
key iteration follows insertion order.  Listener callbacks are represented
by an abstract type `F` compared by identity, and the side effects of an
operation (synchronous listener invocations and `console.error` logging)
are returned as an explicit list of events.
-/

namespace PubSubTS

/-- Association-list lookup: first pair whose key matches, mirroring a
JavaScript property read `m[k]`. -/
def alookup {α : Type} (k : String) : List (String × α) → Option α
  | [] => none
  | (k', v) :: rest => if k' = k then some v else alookup k rest

/-- Association-list write `m[k] = v`: update in place when the key is
present, append otherwise, as JavaScript property assignment does. -/
def aupdate {α : Type} (k : String) (v : α) : List (String × α) → List (String × α)
  | [] => [(k, v)]
  | (k', v') :: rest => if k' = k then (k, v) :: rest else (k', v') :: aupdate k v rest

/-- Association-list `delete m[k]`: remove the first pair whose key matches
(the only one, since embedded objects keep their keys distinct). -/
def aerase {α : Type} (k : String) : List (String × α) → List (String × α)
  | [] => []
  | (k', v') :: rest => if k' = k then rest else (k', v') :: aerase k rest

section ALookupLemmas

variable {α : Type} {k k' : String} {v : α} {l : List (String × α)}

@[simp] theorem alookup_nil : alookup k ([] : List (String × α)) = none := rfl

theorem alookup_cons {p : String × α} :
    alookup k (p :: l) = if p.1 = k then some p.2 else alookup k l := by
  cases p; rfl

@[simp] theorem alookup_aupdate_self : alookup k (aupdate k v l) = some v := by
  induction l with
  | nil => simp [aupdate, alookup]
  | cons p rest ih =>
    obtain ⟨a, b⟩ := p
    by_cases h : a = k
    · simp [aupdate, h, alookup]
    · simp [aupdate, h, alookup, ih]

theorem alookup_aupdate_ne (h : k' ≠ k) :
    alookup k' (aupdate k v l) = alookup k' l := by
  have hk : ¬ (k = k') := fun hh => h hh.symm
  induction l with
  | nil => simp [aupdate, alookup, hk]
  | cons p rest ih =>
    obtain ⟨a, b⟩ := p
    by_cases ha : a = k
    · subst ha
      simp [aupdate, alookup, hk]
    · by_cases hb : a = k'
      · subst hb
        simp [aupdate, alookup, ha]
      · simp [aupdate, alookup, ha, hb, ih]

theorem alookup_aerase_ne (h : k' ≠ k) :
    alookup k' (aerase k l) = alookup k' l := by
  induction l with
  | nil => simp [aerase]
  | cons p rest ih =>
    obtain ⟨a, b⟩ := p
    by_cases ha : a = k
    · subst ha
      have hk : ¬ (a = k') := fun hh => h hh.symm
      simp [aerase, alookup, hk]
    · by_cases hb : a = k'
      · subst hb
        simp [aerase, alookup, ha]
      · simp [aerase, alookup, ha, hb, ih]

theorem alookup_eq_none_of_not_mem_keys (h : k ∉ l.map Prod.fst) :
    alookup k l = none := by
  induction l with
  | nil => rfl
  | cons p rest ih =>
    obtain ⟨a, b⟩ := p
    simp only [List.map_cons, List.mem_cons] at h
    push_neg at h
    have ha : ¬ (a = k) := fun hh => h.1 hh.symm
    simp only [alookup, if_neg ha]
    exact ih h.2

theorem alookup_aerase_self (hnd : (l.map Prod.fst).Nodup) :
    alookup k (aerase k l) = none := by
  induction l with
  | nil => rfl
  | cons p rest ih =>
    obtain ⟨a, b⟩ := p
    simp only [List.map_cons, List.nodup_cons] at hnd
    by_cases ha : a = k
    · subst ha
      simp only [aerase, if_pos rfl]
      exact alookup_eq_none_of_not_mem_keys hnd.1
    · simp only [aerase, if_neg ha, alookup, if_neg ha]
      exact ih hnd.2

theorem mem_of_mem_aupdate {p : String × α} (hp : p ∈ aupdate k v l) :
    p = (k, v) ∨ p ∈ l := by
  induction l with
  | nil => simpa [aupdate] using hp
  | cons q rest ih =>
    obtain ⟨a, b⟩ := q
    by_cases ha : a = k
    · simp only [aupdate, if_pos ha, List.mem_cons] at hp
      rcases hp with h | h
      · exact Or.inl h
      · exact Or.inr (List.mem_cons_of_mem _ h)
    · simp only [aupdate, if_neg ha, List.mem_cons] at hp
      rcases hp with h | h
      · exact Or.inr (h ▸ List.mem_cons_self _ _)
      · rcases ih h with h' | h'
        · exact Or.inl h'
        · exact Or.inr (List.mem_cons_of_mem _ h')

theorem self_mem_aupdate : (k, v) ∈ aupdate k v l := by
  induction l with
  | nil => simp [aupdate]
  | cons q rest ih =>
    obtain ⟨a, b⟩ := q
    by_cases ha : a = k
    · simp [aupdate, ha]
    · simp only [aupdate, if_neg ha, List.mem_cons]
      exact Or.inr ih

theorem mem_of_mem_aerase {p : String × α} (hp : p ∈ aerase k l) : p ∈ l := by
  induction l with
  | nil => simp [aerase] at hp
  | cons q rest ih =>
    obtain ⟨a, b⟩ := q
    by_cases ha : a = k
    · simp only [aerase, if_pos ha] at hp
      exact List.mem_cons_of_mem _ hp
    · simp only [aerase, if_neg ha, List.mem_cons] at hp
      rcases hp with h | h
      · exact h ▸ List.mem_cons_self _ _
      · exact List.mem_cons_of_mem _ (ih h)

theorem keys_aupdate_nodup (hnd : (l.map Prod.fst).Nodup) :
    ((aupdate k v l).map Prod.fst).Nodup := by
  induction l with
  | nil => simp [aupdate]
  | cons q rest ih =>
    obtain ⟨a, b⟩ := q
    simp only [List.map_cons, List.nodup_cons] at hnd
    by_cases ha : a = k
    · subst ha
      have hupd : aupdate a v ((a, b) :: rest) = (a, v) :: rest := by simp [aupdate]
      rw [hupd]
      simp only [List.map_cons, List.nodup_cons]
      exact hnd
    · simp only [aupdate, if_neg ha, List.map_cons, List.nodup_cons]
      refine ⟨fun hmem => ?_, ih hnd.2⟩
      rcases List.mem_map.1 hmem with ⟨p, hp, hpx⟩
      rcases mem_of_mem_aupdate hp with h | h
      · exact ha (hpx ▸ h ▸ rfl)
      · exact hnd.1 (hpx ▸ List.mem_map_of_mem _ h)

theorem keys_aerase_nodup (hnd : (l.map Prod.fst).Nodup) :
    ((aerase k l).map Prod.fst).Nodup := by
  induction l with
  | nil => simp [aerase]
  | cons q rest ih =>
    obtain ⟨a, b⟩ := q
    simp only [List.map_cons, List.nodup_cons] at hnd
    by_cases ha : a = k
    · simp only [aerase, if_pos ha]
      exact hnd.2
    · simp only [aerase, if_neg ha, List.map_cons, List.nodup_cons]
      refine ⟨fun hmem => ?_, ih hnd.2⟩
      rcases List.mem_map.1 hmem with ⟨p, hp, hpx⟩
      exact hnd.1 (hpx ▸ List.mem_map_of_mem _ (mem_of_mem_aerase hp))

theorem alookup_some_mem (h : alookup k l = some v) : (k, v) ∈ l := by
  induction l with
  | nil => simp [alookup] at h
  | cons q rest ih =>
    obtain ⟨a, b⟩ := q
    by_cases ha : a = k
    · subst ha
      rw [show alookup a ((a, b) :: rest) = some b from by simp [alookup]] at h
      have hb : b = v := by simpa using h
      subst hb
      exact List.mem_cons_self _ _
    · simp only [alookup, if_neg ha] at h
      exact List.mem_cons_of_mem _ (ih h)

theorem alookup_map_snd {β : Type} (g : String → α → β) {l : List (String × α)} :
    alookup k (l.map (fun p => (p.1, g p.1 p.2))) = (alookup k l).map (g k) := by
  induction l with
  | nil => simp [alookup]
  | cons q rest ih =>
    obtain ⟨a, b⟩ := q
    by_cases ha : a = k
    · subst ha
      simp [alookup, ih]
    · simp [alookup, ha, ih]

end ALookupLemmas

/-! ## Subscription identifiers

Identifiers are minted as `"{namespace}_{counter}"` (spec §4.1).  The
decimal rendering of the counter is written with explicit fuel so that the
definition is structurally recursive (the fuel `n + 1` always suffices,
since the argument shrinks by a factor of ten each step). -/

/-- The character for a decimal digit (only ever applied to `0`–`9`). -/
def digitCh : Nat → Char
  | 0 => '0'
  | 1 => '1'
  | 2 => '2'
  | 3 => '3'
  | 4 => '4'
  | 5 => '5'
  | 6 => '6'
  | 7 => '7'
  | 8 => '8'
  | _ => '9'

/-- Decimal digits of `n`, most significant first, computed with `fuel`
recursion steps. -/
def natCharsFuel : Nat → Nat → List Char
  | 0, _ => []
  | fuel + 1, n =>
    if n < 10 then [digitCh n]
    else natCharsFuel fuel (n / 10) ++ [digitCh (n % 10)]

/-- Decimal rendering of a natural number, as JavaScript string
interpolation of a counter produces it. -/
def natStr (n : Nat) : String := ⟨natCharsFuel (n + 1) n⟩

/-- `"{ns}_{n}"`: the identifier minted by a registry with namespace `ns`
at counter value `n` (spec §4.1). -/
def mkId (ns : String) (n : Nat) : String := ns ++ "_" ++ natStr n

/-- `id.split("_")[0]`: the longest prefix of `id` before its first
underscore (the whole of `id` when it has none), used by `PubSub.Unsub` to
route an identifier. -/
def entryKeyOf (id : String) : String := ⟨id.data.takeWhile (fun c => c ≠ '_')⟩

theorem string_data_inj {a b : String} (h : a.data = b.data) : a = b := by
  cases a; cases b; exact congrArg String.mk h

theorem digitCh_ne_underscore (d : Nat) : digitCh d ≠ '_' := by
  match d with
  | 0 | 1 | 2 | 3 | 4 | 5 | 6 | 7 | 8 => exact (by decide)
  | n + 9 => exact (by decide : ('9' : Char) ≠ '_')

theorem underscore_not_mem_natCharsFuel (fuel n : Nat) :
    '_' ∉ natCharsFuel fuel n := by
  induction fuel generalizing n with
  | zero => simp [natCharsFuel]
  | succ fuel ih =>
    simp only [natCharsFuel]
    split
    · simp [(digitCh_ne_underscore n).symm]
    · intro hmem
      rcases List.mem_append.1 hmem with h | h
      · exact ih _ h
      · simp at h
        exact digitCh_ne_underscore _ h.symm

theorem underscore_not_mem_natStr (n : Nat) : '_' ∉ (natStr n).data :=
  underscore_not_mem_natCharsFuel _ _

theorem data_mkId (ns : String) (n : Nat) :
    (mkId ns n).data = ns.data ++ '_' :: (natStr n).data := by
  simp [mkId, String.data_append]

/-- Splitting at the distinguished underscore is unambiguous when neither
side contains one. -/
theorem append_underscore_inj :
    ∀ (a c : List Char) {b d : List Char}, '_' ∉ b → '_' ∉ d →
      a ++ '_' :: b = c ++ '_' :: d → a = c ∧ b = d := by
  intro a
  induction a with
  | nil =>
    intro c b d hb hd h
    cases c with
    | nil =>
      simp only [List.nil_append, List.cons.injEq] at h
      exact ⟨rfl, h.2⟩
    | cons x c' =>
      simp only [List.nil_append, List.cons_append, List.cons.injEq] at h
      exact absurd (h.2 ▸ List.mem_append_right c' (List.mem_cons_self _ _)) hb
  | cons y a' ih =>
    intro c b d hb hd h
    cases c with
    | nil =>
      simp only [List.cons_append, List.nil_append, List.cons.injEq] at h
      have : '_' ∈ d := h.2 ▸ List.mem_append_right a' (List.mem_cons_self _ _)
      exact absurd this hd
    | cons x c' =>
      simp only [List.cons_append, List.cons.injEq] at h
      obtain ⟨hac, hbd⟩ := ih c' hb hd h.2
      exact ⟨by rw [h.1, hac], hbd⟩

theorem mkId_eq_mkId_iff {ns ns' : String} {m n : Nat}
    (h : mkId ns m = mkId ns' n) : ns = ns' := by
  have hd : (mkId ns m).data = (mkId ns' n).data := by rw [h]
  rw [data_mkId, data_mkId] at hd
  have := append_underscore_inj ns.data ns'.data
    (underscore_not_mem_natStr m) (underscore_not_mem_natStr n) hd
  exact string_data_inj this.1

theorem takeWhile_append_of_all {p : Char → Bool} {a : List Char}
    (ha : ∀ c ∈ a, p c) (x : Char) (hx : ¬ p x) (b : List Char) :
    (a ++ x :: b).takeWhile p = a := by
  induction a with
  | nil => simp [List.takeWhile, hx]
  | cons y a' ih =>
    have hy : p y := ha y (List.mem_cons_self _ _)
    simp only [List.cons_append, List.takeWhile_cons, hy, if_true]
    rw [ih (fun c hc => ha c (List.mem_cons_of_mem _ hc))]

theorem takeWhile_eq_of_first_fails {p : Char → Bool} {a : List Char} {x : Char}
    (hx : ¬ p x) (hmem : x ∈ a) : (a.takeWhile p).length < a.length := by
  induction a with
  | nil => simp at hmem
  | cons y a' ih =>
    by_cases hy : p y
    · simp only [List.takeWhile_cons, hy, if_true, List.length_cons]
      rcases List.mem_cons.1 hmem with h | h
      · exact absurd (h ▸ hy) hx
      · exact Nat.succ_lt_succ (ih h)
    · simp only [List.takeWhile_cons, hy, if_false, List.length_nil, List.length_cons]
      exact Nat.succ_pos _

/-- Routing a minted identifier recovers the namespace, provided the
namespace itself contains no underscore. -/
theorem entryKeyOf_mkId {ns : String} (h : '_' ∉ ns.data) (n : Nat) :
    entryKeyOf (mkId ns n) = ns := by
  apply string_data_inj
  show (mkId ns n).data.takeWhile (fun c => c ≠ '_') = ns.data
  rw [data_mkId]
  refine takeWhile_append_of_all ?_ '_' (by simp) _
  intro c hc
  simp only [ne_eq, decide_eq_true_eq]
  exact fun hc' => h (hc' ▸ hc)

/-- Routing a minted identifier whose namespace contains an underscore
truncates at the namespace's own first underscore. -/
theorem entryKeyOf_mkId_of_underscore {ns : String} (h : '_' ∈ ns.data) (n : Nat) :
    entryKeyOf (mkId ns n) = entryKeyOf ns := by
  have key : ∀ (a : List Char), '_' ∈ a → ∀ b,
      (a ++ b).takeWhile (fun c => c ≠ '_') = a.takeWhile (fun c => c ≠ '_') := by
    intro a ha
    induction a with
    | nil => simp at ha
    | cons y a' ih =>
      intro b
      by_cases hy : y = '_'
      · subst hy
        simp [List.takeWhile_cons]
      · rcases List.mem_cons.1 ha with h' | h'
        · exact absurd h'.symm hy
        · simp only [List.cons_append, List.takeWhile_cons]
          have : (fun c => decide (c ≠ '_')) y = true := by simpa using hy
          simp only [this, if_true]
          rw [ih h']
  have hdata : (mkId ns n).data.takeWhile (fun c => c ≠ '_') =
      ns.data.takeWhile (fun c => c ≠ '_') := by
    rw [data_mkId]
    exact key ns.data h ('_' :: (natStr n).data)
  apply string_data_inj
  show (mkId ns n).data.takeWhile (fun c => c ≠ '_') =
      ns.data.takeWhile (fun c => c ≠ '_')
  exact hdata

theorem entryKeyOf_ne_self_of_underscore {k : String} (h : '_' ∈ k.data) :
    entryKeyOf k ≠ k := by
  intro heq
  have : (entryKeyOf k).data = k.data := by rw [heq]
  simp only [entryKeyOf] at this
  have hlt := takeWhile_eq_of_first_fails (p := fun c => c ≠ '_') (by simp) h
  rw [this] at hlt
  exact Nat.lt_irrefl _ hlt

/-! ## The subscriber registry (`common.Subber`)

Modelled from the spec: the `common` module is imported by `src/pubsub.ts`
but its source is not in the repository; `Subber` follows spec §3
("Subscriber Registry") and §4.1. -/

/-- Modelled from the spec: `common.Subber<T>` — a registry mapping
subscription identifiers to callbacks, with an immutable namespace and a
monotonically increasing counter used to mint identifiers
`"{namespace}_{counter}"` (spec §3, §4.1).  `F` stands for the callback
values, compared by reference identity as in JavaScript. -/
structure Subber (F : Type) where
  ns : String
  counter : Nat
  listeners : List (String × F)
  deriving DecidableEq

/-- Modelled from the spec: a fresh registry for namespace `ns`. -/
def Subber.new {F : Type} (ns : String) : Subber F := ⟨ns, 0, []⟩

/-- Modelled from the spec (§4.1): `Sub(fn, explicitId?)`.  With an
explicit identifier, registers `fn` under exactly that identifier and
returns it unchanged (used only for forwarding a global id into an
Entry's local registry); otherwise mints `"{namespace}_{counter}"`,
increments the counter, registers, and returns the minted id. -/
def Subber.Sub {F : Type} (s : Subber F) (fn : F) (explicitId : Option String) :
    Subber F × String :=
  match explicitId with
  | some id => (⟨s.ns, s.counter, aupdate id fn s.listeners⟩, id)
  | none =>
    let id := mkId s.ns s.counter
    (⟨s.ns, s.counter + 1, aupdate id fn s.listeners⟩, id)

/-- Modelled from the spec (§4.1): `Unsub(id)` removes the listener bound
to `id` and reports whether it was present. -/
def Subber.Unsub {F : Type} (s : Subber F) (id : String) : Subber F × Bool :=
  match alookup id s.listeners with
  | none => (s, false)
  | some _ => (⟨s.ns, s.counter, aerase id s.listeners⟩, true)

/-! ## The per-key entry (`entry.Entry`)

Modelled from the spec: the `entry` module is imported by `src/pubsub.ts`
but its source is not in the repository; `Entry` follows spec §3
("Entry") and §4.2. -/

/-- An observable side effect of an operation: a synchronous listener
invocation `fn(val, key)` (with `none` as the null/closed sentinel), or a
`console.error` log line. -/
inductive Event (T F : Type)
  | invoke (fn : F) (val : Option T) (key : String)
  | log (msg : String)
  deriving DecidableEq

/-- Modelled from the spec: `entry.Entry<T>` — one key's latest value plus
a private registry whose namespace equals the key (spec §3, §4.2). -/
structure Entry (T F : Type) where
  key : String
  value : Option T
  localSubs : Subber F
  deriving DecidableEq

/-- Modelled from the spec: `new entry.Entry(key)` — no value yet, empty
local registry namespaced by `key`. -/
def Entry.new {T F : Type} (key : String) : Entry T F :=
  ⟨key, none, Subber.new key⟩

/-- Modelled from the spec (§4.2): `Get()` returns the last published
value, or null if none has ever been published. -/
def Entry.Get {T F : Type} (e : Entry T F) : Option T := e.value

/-- Modelled from the spec (§4.2): `Put(val)` stores `val`, then invokes
every listener in `localSubs` with `(val, key)` in registry order. -/
def Entry.Put {T F : Type} (e : Entry T F) (val : T) : Entry T F × List (Event T F) :=
  ({ e with value := some val },
   e.localSubs.listeners.map (fun p => Event.invoke p.2 (some val) e.key))

/-- Modelled from the spec (§4.2): `Sub(fn, explicitId?)` delegates to
`localSubs.Sub`. -/
def Entry.Sub {T F : Type} (e : Entry T F) (fn : F) (explicitId : Option String) :
    Entry T F × String :=
  let r := e.localSubs.Sub fn explicitId
  ({ e with localSubs := r.1 }, r.2)

/-- Modelled from the spec (§4.2): `Unsub(id)` delegates to
`localSubs.Unsub`. -/
def Entry.Unsub {T F : Type} (e : Entry T F) (id : String) : Entry T F × Bool :=
  let r := e.localSubs.Unsub id
  ({ e with localSubs := r.1 }, r.2)

/-- Modelled from the spec (§4.2): `Close()` invokes every listener with
`(null, key)` to signal termination, then clears `localSubs`. -/
def Entry.Close {T F : Type} (e : Entry T F) : Entry T F × List (Event T F) :=
  ({ e with localSubs := ⟨e.localSubs.ns, e.localSubs.counter, []⟩ },
   e.localSubs.listeners.map (fun p => Event.invoke p.2 none e.key))

/-! ## The store (`PubSub`, from `src/pubsub.ts`)

Direct translation of the `PubSub<T>` class.  The field names `m` (entry
map) and `s` (global-level subscribers) are the source's. -/

/-- `PubSub<T>` from `src/pubsub.ts`: an entry map plus the global-level
subscriber registry. -/
structure PubSub (T F : Type) where
  m : List (String × Entry T F)
  s : Subber F
  deriving DecidableEq

/-- `New()` / the constructor: fresh entry map, internal subber with the
prefix `"global"`. -/
def PubSub.New {T F : Type} : PubSub T F := ⟨[], Subber.new "global"⟩

/-- `forEach` (`pubsub.ts:37`) combined with an in-place mutation of each
entry: visit every entry of the map in iteration order and replace it by
`g` of it. -/
def mapEntries {T F : Type} (g : Entry T F → Entry T F)
    (m : List (String × Entry T F)) : List (String × Entry T F) :=
  m.map (fun p => (p.1, g p.2))

/-- `createEntry` (`pubsub.ts:23`): return the existing entry, or create
one, store it in the map, and forward every current global listener into
it via `this.s.ForEach((sKey, fn) => e.Sub(fn, sKey))`. -/
def PubSub.createEntry {T F : Type} (ps : PubSub T F) (key : String) :
    PubSub T F × Entry T F :=
  match alookup key ps.m with
  | some e => (ps, e)
  | none =>
    let e := ps.s.listeners.foldl (fun acc p => (acc.Sub p.2 (some p.1)).1)
      (Entry.new key)
    (⟨aupdate key e ps.m, ps.s⟩, e)

/-- `sub` (`pubsub.ts:44`): mint a global id via `this.s.Sub(fn)`, then
forward `(fn, sk)` into every existing entry. -/
def PubSub.sub {T F : Type} (ps : PubSub T F) (fn : F) : PubSub T F × String :=
  let r := ps.s.Sub fn none
  (⟨mapEntries (fun e => (e.Sub fn (some r.2)).1) ps.m, r.1⟩, r.2)

/-- `unsub` (`pubsub.ts:50`): remove `key` from the global registry; on
failure log and return `false`, otherwise also unsub it from every
entry. -/
def PubSub.unsub {T F : Type} (ps : PubSub T F) (key : String) :
    PubSub T F × List (Event T F) × Bool :=
  match ps.s.Unsub key with
  | (_, false) => (ps, [Event.log "Could not unsub key!"], false)
  | (s', true) =>
    (⟨mapEntries (fun e => (e.Unsub key).1) ps.m, s'⟩, [], true)

/-- `Get` (`pubsub.ts:65`): null when no entry exists for the key,
otherwise the entry's value. -/
def PubSub.Get {T F : Type} (ps : PubSub T F) (key : String) : Option T :=
  match alookup key ps.m with
  | none => none
  | some e => e.Get

/-- `Get`, viewed as a method call on the mutable receiver: the method
only reads `this.m`, so the receiver is returned unchanged. -/
def PubSub.GetM {T F : Type} (ps : PubSub T F) (key : String) :
    PubSub T F × Option T :=
  match alookup key ps.m with
  | none => (ps, none)
  | some e => (ps, e.Get)

/-- `Put` (`pubsub.ts:75`): reject the reserved key `"*"` with a logged
error, otherwise lazily create the entry and delegate to `Entry.Put`. -/
def PubSub.Put {T F : Type} (ps : PubSub T F) (key : String) (val : T) :
    PubSub T F × List (Event T F) :=
  if key = "*" then (ps, [Event.log "invalid key"])
  else
    let c := ps.createEntry key
    let r := c.2.Put val
    (⟨aupdate key r.1 c.1.m, c.1.s⟩, r.2)

/-- `Delete` (`pubsub.ts:89`): `false` when no entry exists; otherwise
close the entry (notifying its listeners with the null sentinel) and
remove it from the map. -/
def PubSub.Delete {T F : Type} (ps : PubSub T F) (key : String) :
    PubSub T F × List (Event T F) × Bool :=
  match alookup key ps.m with
  | none => (ps, [], false)
  | some e =>
    (⟨aerase key ps.m, ps.s⟩, (e.Close).2, true)

/-- `Sub` (`pubsub.ts:102`): the wildcard `"*"` runs the global `sub`;
any other key lazily creates the entry and delegates to `Entry.Sub`
(which mints an id namespaced by the key). -/
def PubSub.Sub {T F : Type} (ps : PubSub T F) (key : String) (fn : F) :
    PubSub T F × String :=
  if key = "*" then ps.sub fn
  else
    let c := ps.createEntry key
    let r := c.2.Sub fn none
    (⟨aupdate key r.1 c.1.m, c.1.s⟩, r.2)

/-- `Unsub` (`pubsub.ts:114`): parse the entry key as `key.split("_")[0]`;
`"global"` routes to the global `unsub`, otherwise delegate to the named
entry when it exists (else `false`). -/
def PubSub.Unsub {T F : Type} (ps : PubSub T F) (id : String) :
    PubSub T F × List (Event T F) × Bool :=
  let entryKey := entryKeyOf id
  if entryKey = "global" then ps.unsub id
  else
    match alookup entryKey ps.m with
    | none => (ps, [], false)
    | some e =>
      let r := e.Unsub id
      (⟨aupdate entryKey r.1 ps.m, ps.s⟩, [], r.2)

/-- `Close` (`pubsub.ts:133`): close every entry and delete it from the
map, accumulating each entry's close notifications in iteration order. -/
def PubSub.Close {T F : Type} (ps : PubSub T F) : PubSub T F × List (Event T F) :=
  (⟨[], ps.s⟩, ps.m.foldr (fun p acc => (p.2.Close).2 ++ acc) [])

/-! ## Reachable states

The public interface of the store (spec §6): `Put`, `Delete`, `Sub`,
`Unsub`, `Close` (and the pure `Get`, which does not change state). -/

/-- One invocation of a state-changing public operation of the store. -/
inductive Op (T F : Type)
  | put (key : String) (val : T)
  | delete (key : String)
  | sub (key : String) (fn : F)
  | unsub (id : String)
  | close
  deriving DecidableEq

/-- The state after running one public operation. -/
def applyOp {T F : Type} (ps : PubSub T F) : Op T F → PubSub T F
  | .put key val => (ps.Put key val).1
  | .delete key => (ps.Delete key).1
  | .sub key fn => (ps.Sub key fn).1
  | .unsub id => (ps.Unsub id).1
  | .close => (ps.Close).1

/-- The state after running a sequence of public operations. -/
def runOps {T F : Type} (ps : PubSub T F) (ops : List (Op T F)) : PubSub T F :=
  ops.foldl applyOp ps

/-- States reachable from a fresh store through the public interface. -/
inductive Reachable {T F : Type} : PubSub T F → Prop
  | new : Reachable PubSub.New
  | step {ps : PubSub T F} (h : Reachable ps) (op : Op T F) : Reachable (applyOp ps op)

/-! ## Characterizations of the operations -/

section OpLemmas

variable {T F : Type} {ps : PubSub T F} {key id : String} {fn : F} {val : T}
variable {e : Entry T F}

theorem Subber_Sub_some (s : Subber F) (fn : F) (id : String) :
    s.Sub fn (some id) = (⟨s.ns, s.counter, aupdate id fn s.listeners⟩, id) := rfl

theorem Subber_Sub_none (s : Subber F) (fn : F) :
    s.Sub fn none =
      (⟨s.ns, s.counter + 1, aupdate (mkId s.ns s.counter) fn s.listeners⟩,
       mkId s.ns s.counter) := rfl

theorem Subber_Unsub_absent {s : Subber F} (h : alookup id s.listeners = none) :
    s.Unsub id = (s, false) := by
  simp [Subber.Unsub, h]

theorem Subber_Unsub_present {s : Subber F} {fn : F}
    (h : alookup id s.listeners = some fn) :
    s.Unsub id = (⟨s.ns, s.counter, aerase id s.listeners⟩, true) := by
  simp [Subber.Unsub, h]

theorem alookup_mapEntries (g : Entry T F → Entry T F)
    (m : List (String × Entry T F)) (k : String) :
    alookup k (mapEntries g m) = (alookup k m).map g := by
  induction m with
  | nil => simp [mapEntries, alookup]
  | cons q rest ih =>
    obtain ⟨a, b⟩ := q
    by_cases ha : a = k
    · subst ha
      simp [mapEntries, alookup]
    · simp only [mapEntries, List.map_cons, alookup, if_neg ha]
      simpa [mapEntries] using ih

theorem keys_mapEntries (g : Entry T F → Entry T F) (m : List (String × Entry T F)) :
    (mapEntries g m).map Prod.fst = m.map Prod.fst := by
  simp [mapEntries]

theorem mem_mapEntries_elim {g : Entry T F → Entry T F}
    {m : List (String × Entry T F)} {p : String × Entry T F}
    (hp : p ∈ mapEntries g m) : ∃ q ∈ m, p = (q.1, g q.2) := by
  rcases List.mem_map.1 hp with ⟨q, hq, rfl⟩
  exact ⟨q, hq, rfl⟩

theorem createEntry_of_present (h : alookup key ps.m = some e) :
    ps.createEntry key = (ps, e) := by
  simp [PubSub.createEntry, h]

theorem createEntry_of_absent (h : alookup key ps.m = none) :
    ps.createEntry key =
      (⟨aupdate key
          (ps.s.listeners.foldl (fun acc p => (acc.Sub p.2 (some p.1)).1)
            (Entry.new key)) ps.m, ps.s⟩,
       ps.s.listeners.foldl (fun acc p => (acc.Sub p.2 (some p.1)).1)
         (Entry.new key)) := by
  simp [PubSub.createEntry, h]

/-- Forwarding a list of `(id, fn)` pairs into an entry only rewrites the
local listener list, by folded `aupdate`s. -/
theorem foldl_forward_components (gl : List (String × F)) (e : Entry T F) :
    (gl.foldl (fun acc p => (acc.Sub p.2 (some p.1)).1) e).key = e.key ∧
    (gl.foldl (fun acc p => (acc.Sub p.2 (some p.1)).1) e).value = e.value ∧
    (gl.foldl (fun acc p => (acc.Sub p.2 (some p.1)).1) e).localSubs.ns =
      e.localSubs.ns ∧
    (gl.foldl (fun acc p => (acc.Sub p.2 (some p.1)).1) e).localSubs.counter =
      e.localSubs.counter ∧
    (gl.foldl (fun acc p => (acc.Sub p.2 (some p.1)).1) e).localSubs.listeners =
      gl.foldl (fun a p => aupdate p.1 p.2 a) e.localSubs.listeners := by
  induction gl generalizing e with
  | nil => exact ⟨rfl, rfl, rfl, rfl, rfl⟩
  | cons q rest ih =>
    obtain ⟨a, b⟩ := q
    simpa [Entry.Sub, Subber.Sub] using
      ih { e with localSubs := ⟨e.localSubs.ns, e.localSubs.counter,
        aupdate a b e.localSubs.listeners⟩ }

theorem alookup_foldl_aupdate_notmem {sk : String}
    {gl acc : List (String × F)} (h : sk ∉ gl.map Prod.fst) :
    alookup sk (gl.foldl (fun a p => aupdate p.1 p.2 a) acc) = alookup sk acc := by
  induction gl generalizing acc with
  | nil => rfl
  | cons q rest ih =>
    obtain ⟨a, b⟩ := q
    simp only [List.map_cons, List.mem_cons] at h
    push_neg at h
    simp only [List.foldl_cons]
    rw [ih h.2, alookup_aupdate_ne h.1]

theorem alookup_foldl_aupdate_of_lookup {sk : String} {fn : F}
    {gl acc : List (String × F)} (hnd : (gl.map Prod.fst).Nodup)
    (h : alookup sk gl = some fn) :
    alookup sk (gl.foldl (fun a p => aupdate p.1 p.2 a) acc) = some fn := by
  induction gl generalizing acc with
  | nil => simp [alookup] at h
  | cons q rest ih =>
    obtain ⟨a, b⟩ := q
    simp only [List.map_cons, List.nodup_cons] at hnd
    by_cases ha : a = sk
    · subst ha
      rw [show alookup a ((a, b) :: rest) = some b from by simp [alookup]] at h
      have hb : b = fn := by simpa using h
      subst hb
      simp only [List.foldl_cons]
      rw [alookup_foldl_aupdate_notmem hnd.1]
      exact alookup_aupdate_self
    · simp only [alookup, if_neg ha] at h
      simp only [List.foldl_cons]
      exact ih hnd.2 h

theorem keys_foldl_aupdate_nodup {gl acc : List (String × F)}
    (hnd : (acc.map Prod.fst).Nodup) :
    ((gl.foldl (fun a p => aupdate p.1 p.2 a) acc).map Prod.fst).Nodup := by
  induction gl generalizing acc with
  | nil => exact hnd
  | cons q rest ih =>
    simp only [List.foldl_cons]
    exact ih (keys_aupdate_nodup hnd)

theorem PubSub_Put_star (v : T) :
    ps.Put "*" v = (ps, [Event.log "invalid key"]) := rfl

theorem PubSub_Put_of_ne (h : key ≠ "*") (v : T) :
    ps.Put key v =
      (⟨aupdate key ((ps.createEntry key).2.Put v).1 (ps.createEntry key).1.m,
        (ps.createEntry key).1.s⟩, ((ps.createEntry key).2.Put v).2) := by
  simp [PubSub.Put, h]

theorem PubSub_Sub_star :
    ps.Sub "*" fn = ps.sub fn := rfl

theorem PubSub_Sub_of_ne (h : key ≠ "*") :
    ps.Sub key fn =
      (⟨aupdate key ((ps.createEntry key).2.Sub fn none).1 (ps.createEntry key).1.m,
        (ps.createEntry key).1.s⟩, ((ps.createEntry key).2.Sub fn none).2) := by
  simp [PubSub.Sub, h]

theorem PubSub_unsub_absent (h : alookup id ps.s.listeners = none) :
    ps.unsub id = (ps, [Event.log "Could not unsub key!"], false) := by
  simp [PubSub.unsub, Subber_Unsub_absent h]

theorem PubSub_unsub_present {gfn : F} (h : alookup id ps.s.listeners = some gfn) :
    ps.unsub id =
      (⟨mapEntries (fun e => (e.Unsub id).1) ps.m,
        ⟨ps.s.ns, ps.s.counter, aerase id ps.s.listeners⟩⟩, [], true) := by
  simp [PubSub.unsub, Subber_Unsub_present h]

theorem PubSub_Unsub_global (h : entryKeyOf id = "global") :
    ps.Unsub id = ps.unsub id := by
  simp [PubSub.Unsub, h]

theorem PubSub_Unsub_of_absent (h : entryKeyOf id ≠ "global")
    (hm : alookup (entryKeyOf id) ps.m = none) :
    ps.Unsub id = (ps, [], false) := by
  simp [PubSub.Unsub, h, hm]

theorem PubSub_Unsub_of_present (h : entryKeyOf id ≠ "global")
    (hm : alookup (entryKeyOf id) ps.m = some e) :
    ps.Unsub id =
      (⟨aupdate (entryKeyOf id) (e.Unsub id).1 ps.m, ps.s⟩, [], (e.Unsub id).2) := by
  simp [PubSub.Unsub, h, hm]

theorem PubSub_Get_absent (h : alookup key ps.m = none) : ps.Get key = none := by
  simp [PubSub.Get, h]

theorem PubSub_Get_present (h : alookup key ps.m = some e) : ps.Get key = e.Get := by
  simp [PubSub.Get, h]

theorem PubSub_Delete_absent (h : alookup key ps.m = none) :
    ps.Delete key = (ps, [], false) := by
  simp [PubSub.Delete, h]

theorem PubSub_Delete_present (h : alookup key ps.m = some e) :
    ps.Delete key = (⟨aerase key ps.m, ps.s⟩, (e.Close).2, true) := by
  simp [PubSub.Delete, h]

end OpLemmas

/-! ## The store invariant -/

/-- Structural facts maintained by every public operation: the global
registry is namespaced `"global"`, holds distinct identifiers all of the
minted shape `"global_{n}"`; the entry map has distinct keys, never the
reserved key `"*"`, and each entry records its own key as its key field
and as its local namespace, with distinct local identifiers; and the
fan-out property holds for every entry not named by the literal key
`"global"` (an entry named `"global"` mints local identifiers in the same
`"global_{n}"` shape, so a forwarded global registration inside it can be
overwritten). -/
structure Inv {T F : Type} (ps : PubSub T F) : Prop where
  gns : ps.s.ns = "global"
  gnd : (ps.s.listeners.map Prod.fst).Nodup
  gdom : ∀ p ∈ ps.s.listeners, ∃ n, p.1 = mkId "global" n
  mnd : (ps.m.map Prod.fst).Nodup
  ekey : ∀ p ∈ ps.m, (p.2 : Entry T F).key = p.1
  ens : ∀ p ∈ ps.m, (p.2 : Entry T F).localSubs.ns = p.1
  elnd : ∀ p ∈ ps.m, ((p.2 : Entry T F).localSubs.listeners.map Prod.fst).Nodup
  star : alookup "*" ps.m = none
  fan : ∀ sk gfn, alookup sk ps.s.listeners = some gfn →
        ∀ k e, alookup k ps.m = some e → k ≠ "global" →
        alookup sk e.localSubs.listeners = some gfn

section InvLemmas

variable {T F : Type} {ps : PubSub T F} {key id : String} {fn gfn : F} {val : T}
variable {e e' : Entry T F}

/-- Introduction form of `Inv` with the store split into its fields, so
that each obligation is stated over the components directly. -/
theorem Inv_mk (m : List (String × Entry T F)) (s : Subber F)
    (gns : s.ns = "global")
    (gnd : (s.listeners.map Prod.fst).Nodup)
    (gdom : ∀ p ∈ s.listeners, ∃ n, p.1 = mkId "global" n)
    (mnd : (m.map Prod.fst).Nodup)
    (ekey : ∀ p ∈ m, (p.2 : Entry T F).key = p.1)
    (ens : ∀ p ∈ m, (p.2 : Entry T F).localSubs.ns = p.1)
    (elnd : ∀ p ∈ m, ((p.2 : Entry T F).localSubs.listeners.map Prod.fst).Nodup)
    (star : alookup "*" m = none)
    (fan : ∀ sk gfn, alookup sk s.listeners = some gfn →
      ∀ k e, alookup k m = some e → k ≠ "global" →
      alookup sk e.localSubs.listeners = some gfn) :
    Inv (⟨m, s⟩ : PubSub T F) :=
  ⟨gns, gnd, gdom, mnd, ekey, ens, elnd, star, fan⟩

theorem Inv_New : Inv (PubSub.New (T := T) (F := F)) := by
  refine ⟨rfl, List.nodup_nil, ?_, List.nodup_nil, ?_, ?_, ?_, rfl, ?_⟩ <;>
    simp [PubSub.New, Subber.new, alookup]

theorem global_id_shape (hI : Inv ps) (h : alookup id ps.s.listeners = some gfn) :
    ∃ n, id = mkId "global" n :=
  hI.gdom _ (alookup_some_mem h)

theorem global_id_entryKey (hI : Inv ps) (h : alookup id ps.s.listeners = some gfn) :
    entryKeyOf id = "global" := by
  obtain ⟨n, rfl⟩ := global_id_shape hI h
  exact entryKeyOf_mkId (by decide) n

/-- Replacing (or inserting) the entry for `key` preserves the invariant,
provided the new entry is well-formed and, when `key ≠ "global"`, still
holds every global listener. -/
theorem Inv_update_entry (hI : Inv ps) (hstar : key ≠ "*")
    (hk : e'.key = key) (hns : e'.localSubs.ns = key)
    (hnd : (e'.localSubs.listeners.map Prod.fst).Nodup)
    (hfan : key ≠ "global" → ∀ sk gfn, alookup sk ps.s.listeners = some gfn →
      alookup sk e'.localSubs.listeners = some gfn) :
    Inv (⟨aupdate key e' ps.m, ps.s⟩ : PubSub T F) := by
  refine ⟨hI.gns, hI.gnd, hI.gdom, keys_aupdate_nodup hI.mnd, ?_, ?_, ?_, ?_, ?_⟩
  · intro p hp
    rcases mem_of_mem_aupdate hp with h | h
    · rw [h]; exact hk
    · exact hI.ekey p h
  · intro p hp
    rcases mem_of_mem_aupdate hp with h | h
    · rw [h]; exact hns
    · exact hI.ens p h
  · intro p hp
    rcases mem_of_mem_aupdate hp with h | h
    · rw [h]; exact hnd
    · exact hI.elnd p h
  · rw [alookup_aupdate_ne (fun hh => hstar hh.symm)]
    exact hI.star
  · intro sk gfn hsk k e'' hke hkg
    by_cases hkey : k = key
    · subst hkey
      rw [alookup_aupdate_self] at hke
      obtain rfl : e' = e'' := by simpa using hke
      exact hfan hkg sk gfn hsk
    · rw [alookup_aupdate_ne hkey] at hke
      exact hI.fan sk gfn hsk k e'' hke hkg

/-- `createEntry` preserves the invariant and returns an entry for `key`
that (when `key ≠ "global"`) holds every current global listener. -/
theorem Inv_createEntry (hI : Inv ps) (hstar : key ≠ "*") :
    Inv (ps.createEntry key).1 ∧
    (ps.createEntry key).1.s = ps.s ∧
    alookup key (ps.createEntry key).1.m = some (ps.createEntry key).2 ∧
    (ps.createEntry key).2.key = key ∧
    (ps.createEntry key).2.localSubs.ns = key ∧
    ((ps.createEntry key).2.localSubs.listeners.map Prod.fst).Nodup ∧
    (key ≠ "global" → ∀ sk gfn, alookup sk ps.s.listeners = some gfn →
      alookup sk (ps.createEntry key).2.localSubs.listeners = some gfn) := by
  match hm : alookup key ps.m with
  | some e =>
    rw [createEntry_of_present hm]
    have hmem := alookup_some_mem hm
    refine ⟨hI, rfl, hm, hI.ekey _ hmem, hI.ens _ hmem, hI.elnd _ hmem, ?_⟩
    intro hkg sk gfn hsk
    exact hI.fan sk gfn hsk key e hm hkg
  | none =>
    rw [createEntry_of_absent hm]
    obtain ⟨hkey, hval, hns, hcnt, hlst⟩ :=
      foldl_forward_components ps.s.listeners (Entry.new (T := T) (F := F) key)
    have hnd : (((ps.s.listeners.foldl (fun acc p => (acc.Sub p.2 (some p.1)).1)
        (Entry.new key)) : Entry T F).localSubs.listeners.map Prod.fst).Nodup := by
      rw [hlst]
      exact keys_foldl_aupdate_nodup (by simp [Entry.new, Subber.new])
    have hfan : key ≠ "global" → ∀ sk gfn, alookup sk ps.s.listeners = some gfn →
        alookup sk ((ps.s.listeners.foldl (fun acc p => (acc.Sub p.2 (some p.1)).1)
          (Entry.new (T := T) (F := F) key)).localSubs.listeners) = some gfn := by
      intro _ sk gfn hsk
      rw [hlst]
      exact alookup_foldl_aupdate_of_lookup hI.gnd hsk
    refine ⟨?_, rfl, alookup_aupdate_self, hkey, hns, hnd, hfan⟩
    exact Inv_update_entry hI hstar hkey hns hnd hfan

theorem Inv_Put (hI : Inv ps) : Inv (ps.Put key val).1 := by
  by_cases hstar : key = "*"
  · subst hstar
    rw [PubSub_Put_star]
    exact hI
  · rw [PubSub_Put_of_ne hstar]
    obtain ⟨hI', hs, _, hkey, hns, hnd, hfan⟩ := Inv_createEntry hI hstar
    have := @Inv_update_entry T F (ps.createEntry key).1 key
      ((ps.createEntry key).2.Put val).1 hI' hstar
      (by simpa [Entry.Put] using hkey)
      (by simpa [Entry.Put] using hns)
      (by simpa [Entry.Put] using hnd)
      (by simpa [Entry.Put, hs] using hfan)
    simpa [hs] using this

theorem Inv_sub_global (hI : Inv ps) : Inv (ps.sub fn).1 := by
  have hres : ps.sub fn =
      (⟨mapEntries (fun e => (e.Sub fn (some (mkId ps.s.ns ps.s.counter))).1) ps.m,
        ⟨ps.s.ns, ps.s.counter + 1,
          aupdate (mkId ps.s.ns ps.s.counter) fn ps.s.listeners⟩⟩,
       mkId ps.s.ns ps.s.counter) := by
    simp [PubSub.sub, Subber_Sub_none]
  rw [hres]
  refine Inv_mk _ _ hI.gns (keys_aupdate_nodup hI.gnd) ?_ ?_ ?_ ?_ ?_ ?_ ?_
  · intro p hp
    rcases mem_of_mem_aupdate hp with h | h
    · exact ⟨ps.s.counter, by rw [h, hI.gns]⟩
    · exact hI.gdom p h
  · have hkeys : (mapEntries (fun e =>
        (e.Sub fn (some (mkId ps.s.ns ps.s.counter))).1) ps.m).map Prod.fst =
        ps.m.map Prod.fst := keys_mapEntries _ _
    rw [hkeys]
    exact hI.mnd
  · intro p hp
    rcases mem_mapEntries_elim hp with ⟨q, hq, rfl⟩
    simpa [Entry.Sub, Subber.Sub] using hI.ekey q hq
  · intro p hp
    rcases mem_mapEntries_elim hp with ⟨q, hq, rfl⟩
    simpa [Entry.Sub, Subber.Sub] using hI.ens q hq
  · intro p hp
    rcases mem_mapEntries_elim hp with ⟨q, hq, rfl⟩
    simp only [Entry.Sub, Subber.Sub]
    exact keys_aupdate_nodup (hI.elnd q hq)
  · have hmap : alookup "*" (mapEntries (fun e =>
        (e.Sub fn (some (mkId ps.s.ns ps.s.counter))).1) ps.m) = none := by
      rw [alookup_mapEntries, hI.star]
      rfl
    exact hmap
  · intro sk gfn hsk k e'' hke hkg
    have hke' : alookup k (mapEntries (fun e =>
        (e.Sub fn (some (mkId ps.s.ns ps.s.counter))).1) ps.m) = some e'' := hke
    rw [alookup_mapEntries] at hke'
    have hsk' : alookup sk (aupdate (mkId ps.s.ns ps.s.counter) fn ps.s.listeners) =
        some gfn := hsk
    match hm : alookup k ps.m with
    | none => rw [hm] at hke'; simp at hke'
    | some e0 =>
      rw [hm] at hke'
      obtain rfl : (e0.Sub fn (some (mkId ps.s.ns ps.s.counter))).1 = e'' := by
        simpa using hke'
      simp only [Entry.Sub, Subber.Sub]
      by_cases hid : mkId ps.s.ns ps.s.counter = sk
      · subst hid
        rw [alookup_aupdate_self] at hsk' ⊢
        exact hsk'
      · rw [alookup_aupdate_ne (fun hh => hid hh.symm)] at hsk' ⊢
        exact hI.fan sk gfn hsk' k e0 hm hkg

theorem Inv_Sub (hI : Inv ps) : Inv (ps.Sub key fn).1 := by
  by_cases hstar : key = "*"
  · subst hstar
    rw [PubSub_Sub_star]
    exact Inv_sub_global hI
  · rw [PubSub_Sub_of_ne hstar]
    obtain ⟨hI', hs, _, hkey, hns, hnd, hfan⟩ := Inv_createEntry hI hstar
    set c := ps.createEntry key with hc
    have hkey' : (c.2.Sub fn none).1.key = key := by
      simpa [Entry.Sub, Subber.Sub] using hkey
    have hns' : (c.2.Sub fn none).1.localSubs.ns = key := by
      simpa [Entry.Sub, Subber.Sub] using hns
    have hnd' : ((c.2.Sub fn none).1.localSubs.listeners.map Prod.fst).Nodup := by
      simp only [Entry.Sub, Subber.Sub]
      exact keys_aupdate_nodup hnd
    have hfan' : key ≠ "global" → ∀ sk gfn,
        alookup sk c.1.s.listeners = some gfn →
        alookup sk (c.2.Sub fn none).1.localSubs.listeners = some gfn := by
      intro hkg sk gfn hsk
      rw [hs] at hsk
      obtain ⟨n, rfl⟩ := global_id_shape hI hsk
      simp only [Entry.Sub, Subber.Sub]
      rw [alookup_aupdate_ne]
      · exact hfan hkg _ gfn hsk
      · intro hh
        rw [hns] at hh
        exact hkg (mkId_eq_mkId_iff hh.symm)
    have := @Inv_update_entry T F c.1 key (c.2.Sub fn none).1
      hI' hstar hkey' hns' hnd' (by rw [hs] at hfan' ⊢; exact hfan')
    simpa [hs] using this

theorem Inv_unsub (hI : Inv ps) : Inv (ps.unsub id).1 := by
  match hm : alookup id ps.s.listeners with
  | none =>
    rw [PubSub_unsub_absent hm]
    exact hI
  | some gfn =>
    rw [PubSub_unsub_present hm]
    refine Inv_mk _ _ hI.gns (keys_aerase_nodup hI.gnd) ?_ ?_ ?_ ?_ ?_ ?_ ?_
    · intro p hp
      exact hI.gdom p (mem_of_mem_aerase hp)
    · have hkeys : (mapEntries (fun e => (e.Unsub id).1) ps.m).map Prod.fst =
          ps.m.map Prod.fst := keys_mapEntries _ _
      rw [hkeys]
      exact hI.mnd
    · intro p hp
      rcases mem_mapEntries_elim hp with ⟨q, hq, rfl⟩
      have := hI.ekey q hq
      simp only [Entry.Unsub, Subber.Unsub]
      match alookup id q.2.localSubs.listeners with
      | none => simpa using this
      | some _ => simpa using this
    · intro p hp
      rcases mem_mapEntries_elim hp with ⟨q, hq, rfl⟩
      have := hI.ens q hq
      simp only [Entry.Unsub, Subber.Unsub]
      match alookup id q.2.localSubs.listeners with
      | none => simpa using this
      | some _ => simpa using this
    · intro p hp
      rcases mem_mapEntries_elim hp with ⟨q, hq, rfl⟩
      have := hI.elnd q hq
      simp only [Entry.Unsub, Subber.Unsub]
      match alookup id q.2.localSubs.listeners with
      | none => simpa using this
      | some _ =>
        simpa using keys_aerase_nodup this
    · have hmap : alookup "*" (mapEntries (fun e => (e.Unsub id).1) ps.m) = none := by
        rw [alookup_mapEntries, hI.star]
        rfl
      exact hmap
    · intro sk gfn' hsk k e'' hke hkg
      have hsk' : alookup sk (aerase id ps.s.listeners) = some gfn' := hsk
      have hskne : sk ≠ id := by
        intro hh
        subst hh
        rw [alookup_aerase_self hI.gnd] at hsk'
        exact Option.noConfusion hsk'
      rw [alookup_aerase_ne hskne] at hsk'
      have hke' : alookup k (mapEntries (fun e => (e.Unsub id).1) ps.m) =
          some e'' := hke
      rw [alookup_mapEntries] at hke'
      match hm2 : alookup k ps.m with
      | none => rw [hm2] at hke'; simp at hke'
      | some e0 =>
        rw [hm2] at hke'
        obtain rfl : (e0.Unsub id).1 = e'' := by simpa using hke'
        have hfan0 := hI.fan sk gfn' hsk' k e0 hm2 hkg
        simp only [Entry.Unsub, Subber.Unsub]
        match alookup id e0.localSubs.listeners with
        | none => simpa using hfan0
        | some _ =>
          simpa using (alookup_aerase_ne hskne).trans hfan0

theorem Inv_Unsub (hI : Inv ps) : Inv (ps.Unsub id).1 := by
  by_cases hg : entryKeyOf id = "global"
  · rw [PubSub_Unsub_global hg]
    exact Inv_unsub hI
  · match hm : alookup (entryKeyOf id) ps.m with
    | none =>
      rw [PubSub_Unsub_of_absent hg hm]
      exact hI
    | some e0 =>
      rw [PubSub_Unsub_of_present hg hm]
      have hmem := alookup_some_mem hm
      have hestar : entryKeyOf id ≠ "*" := by
        intro hh
        rw [hh] at hm
        rw [hI.star] at hm
        exact Option.noConfusion hm
      refine Inv_update_entry hI hestar ?_ ?_ ?_ ?_
      · simp only [Entry.Unsub, Subber.Unsub]
        have := hI.ekey _ hmem
        match alookup id e0.localSubs.listeners with
        | none => simpa using this
        | some _ => simpa using this
      · simp only [Entry.Unsub, Subber.Unsub]
        have := hI.ens _ hmem
        match alookup id e0.localSubs.listeners with
        | none => simpa using this
        | some _ => simpa using this
      · simp only [Entry.Unsub, Subber.Unsub]
        have := hI.elnd _ hmem
        match alookup id e0.localSubs.listeners with
        | none => simpa using this
        | some _ => simpa using keys_aerase_nodup this
      · intro hkg sk gfn' hsk
        have hskne : sk ≠ id := by
          intro hh
          subst hh
          exact hg (global_id_entryKey hI hsk)
        have hfan0 := hI.fan sk gfn' hsk _ e0 hm hkg
        simp only [Entry.Unsub, Subber.Unsub]
        match alookup id e0.localSubs.listeners with
        | none => simpa using hfan0
        | some _ => simpa using (alookup_aerase_ne hskne).trans hfan0

theorem Inv_Delete (hI : Inv ps) : Inv (ps.Delete key).1 := by
  match hm : alookup key ps.m with
  | none =>
    rw [PubSub_Delete_absent hm]
    exact hI
  | some e0 =>
    rw [PubSub_Delete_present hm]
    refine ⟨hI.gns, hI.gnd, hI.gdom, keys_aerase_nodup hI.mnd, ?_, ?_, ?_, ?_, ?_⟩
    · intro p hp; exact hI.ekey p (mem_of_mem_aerase hp)
    · intro p hp; exact hI.ens p (mem_of_mem_aerase hp)
    · intro p hp; exact hI.elnd p (mem_of_mem_aerase hp)
    · by_cases hk : key = "*"
      · subst hk
        rw [hI.star] at hm
        exact Option.noConfusion hm
      · rw [alookup_aerase_ne (fun hh => hk hh.symm)]
        exact hI.star
    · intro sk gfn' hsk k e'' hke hkg
      by_cases hk : k = key
      · subst hk
        rw [alookup_aerase_self hI.mnd] at hke
        exact Option.noConfusion hke
      · rw [alookup_aerase_ne hk] at hke
        exact hI.fan sk gfn' hsk k e'' hke hkg

theorem Inv_Close (hI : Inv ps) : Inv (ps.Close).1 := by
  refine ⟨hI.gns, hI.gnd, hI.gdom, ?_, ?_, ?_, ?_, ?_, ?_⟩ <;>
    simp [PubSub.Close, alookup]

/-- Every reachable state satisfies the store invariant. -/
theorem Inv_of_Reachable {ps : PubSub T F} (h : Reachable ps) : Inv ps := by
  induction h with
  | new => exact Inv_New
  | step h op ih =>
    cases op with
    | put key val => exact Inv_Put ih
    | delete key => exact Inv_Delete ih
    | sub key fn => exact Inv_Sub ih
    | unsub id => exact Inv_Unsub ih
    | close => exact Inv_Close ih

end InvLemmas

/-! ## Claims -/

section Claims

variable {T F : Type}

theorem mem_close_events {m : List (String × Entry T F)} {p : String × Entry T F}
    (hp : p ∈ m) {x : Event T F} (hx : x ∈ ((p.2 : Entry T F).Close).2) :
    x ∈ m.foldr (fun q acc => ((q.2 : Entry T F).Close).2 ++ acc) [] := by
  induction m with
  | nil => simp at hp
  | cons r rest ih =>
    rcases List.mem_cons.1 hp with h | h
    · simp only [List.foldr_cons]
      exact List.mem_append_left _ (h ▸ hx)
    · simp only [List.foldr_cons]
      exact List.mem_append_right _ (ih h)

/-- C4 (amended): Get/Put round-trip for every key other than the reserved
`"*"`: after `Put(k, v)` on any store state, `Get(k) == v`. -/
theorem C4_roundtrip_amended (ps : PubSub T F) (k : String) (v : T)
    (h : k ≠ "*") : ((ps.Put k v).1).Get k = some v := by
  rw [PubSub_Put_of_ne h]
  have hm : alookup k (aupdate k ((ps.createEntry k).2.Put v).1
      (ps.createEntry k).1.m) = some ((ps.createEntry k).2.Put v).1 :=
    alookup_aupdate_self
  rw [PubSub_Get_present hm]
  rfl

/-- C4 (counterexample): the claim quantifies over all keys, but for the
reserved key `"*"` the Put is a no-op and the Get stays null, so the
round-trip fails there. -/
theorem C4_roundtrip_counterexample :
    ¬ (((PubSub.New (T := Nat) (F := Nat)).Put "*" 7).1.Get "*" = some 7) := by
  decide

theorem C4_roundtrip_witness :
    ("a" : String) ≠ "*" ∧
    ((PubSub.New (T := Nat) (F := Nat)).Put "a" 7).1.Get "a" = some 7 :=
  ⟨by decide, C4_roundtrip_amended _ "a" 7 (by decide)⟩

/-- C5: wildcard key reservation: in every reachable state `"*"` is not a
key of the entry map; `Put("*", v)` only logs an error and leaves the
state unchanged (creating no entry), `Sub("*", fn)` runs the global
subscription instead of creating an entry, and `Get("*")` is null. -/
theorem C5_star_reserved (ps : PubSub T F) (hr : Reachable ps) (v : T) (fn : F) :
    alookup "*" ps.m = none ∧
    ps.Put "*" v = (ps, [Event.log "invalid key"]) ∧
    ps.Get "*" = none ∧
    ps.Sub "*" fn = ps.sub fn := by
  have hI := Inv_of_Reachable hr
  exact ⟨hI.star, rfl, PubSub_Get_absent hI.star, rfl⟩

theorem C5_star_reserved_witness :
    alookup "*" (PubSub.New (T := Nat) (F := Nat)).m = none ∧
    (PubSub.New (T := Nat) (F := Nat)).Put "*" 3 =
      (PubSub.New, [Event.log "invalid key"]) ∧
    (PubSub.New (T := Nat) (F := Nat)).Get "*" = none ∧
    (PubSub.New (T := Nat) (F := Nat)).Sub "*" 2 = PubSub.sub PubSub.New 2 :=
  C5_star_reserved PubSub.New Reachable.new 3 2

/-- C7: `Close()` closes every entry currently present (each of its
listeners, global-forwarded and local alike, receives the null sentinel
for that entry's key), leaves the entry map empty, and leaves the global
registry unchanged. -/
theorem C7_close (ps : PubSub T F) :
    (ps.Close).1.m = [] ∧
    (ps.Close).1.s = ps.s ∧
    ∀ p ∈ ps.m, ∀ q ∈ (p.2 : Entry T F).localSubs.listeners,
      Event.invoke q.2 none (p.2 : Entry T F).key ∈ (ps.Close).2 := by
  refine ⟨rfl, rfl, ?_⟩
  intro p hp q hq
  exact mem_close_events hp (List.mem_map_of_mem _ hq)

theorem C7_close_witness :
    (("a", (⟨"a", none, ⟨"a", 1, [("a_0", 4)]⟩⟩ : Entry Nat Nat)) ∈
      (applyOp (PubSub.New (T := Nat) (F := Nat)) (Op.sub "a" 4)).m) ∧
    Event.invoke 4 none "a" ∈
      ((applyOp (PubSub.New (T := Nat) (F := Nat)) (Op.sub "a" 4)).Close).2 :=
  ⟨by decide,
   (C7_close _).2.2 ("a", ⟨"a", none, ⟨"a", 1, [("a_0", 4)]⟩⟩) (by decide)
     ("a_0", 4) (by decide)⟩

/-- C8: `Get` returns null exactly when no entry exists for the key, and
otherwise delegates to the entry's own `Get`. -/
theorem C8_get (ps : PubSub T F) (k : String) :
    (alookup k ps.m = none → ps.Get k = none) ∧
    (∀ e, alookup k ps.m = some e → ps.Get k = e.Get) :=
  ⟨fun h => PubSub_Get_absent h, fun _ h => PubSub_Get_present h⟩

theorem C8_get_witness :
    alookup "x" (PubSub.New (T := Nat) (F := Nat)).m = none ∧
    (PubSub.New (T := Nat) (F := Nat)).Get "x" = none :=
  ⟨by decide, (C8_get PubSub.New "x").1 (by decide)⟩

/-- C10: `Get` is side-effect free: as a method call it returns the store
unchanged (creating no entry and touching neither any entry nor the
global registry) together with the value `Get` computes. -/
theorem C10_get_pure (ps : PubSub T F) (k : String) :
    ps.GetM k = (ps, ps.Get k) := by
  match h : alookup k ps.m with
  | none => simp [PubSub.GetM, PubSub.Get, h]
  | some e => simp [PubSub.GetM, PubSub.Get, h]

/-- C1 (counterexample): the fan-out invariant as stated fails on a
reachable state.  Subscribing globally mints the identifier `"global_0"`
in the global registry; a later `Sub("global", fn)` creates the entry
named `"global"` (receiving the forwarded global listener) and then mints
its own local identifier — also `"global_0"`, because the entry's
namespace is its key — overwriting the forwarded registration.  The state
below is reachable, has listener `7` under `"global_0"` globally, yet the
entry `"global"` holds `1` under that identifier. -/
theorem C1_fanout_counterexample :
    Reachable (applyOp (applyOp (PubSub.New (T := Nat) (F := Nat))
      (Op.sub "*" 7)) (Op.sub "global" 1)) ∧
    alookup "global_0" (applyOp (applyOp (PubSub.New (T := Nat) (F := Nat))
      (Op.sub "*" 7)) (Op.sub "global" 1)).s.listeners = some 7 ∧
    alookup "global" (applyOp (applyOp (PubSub.New (T := Nat) (F := Nat))
      (Op.sub "*" 7)) (Op.sub "global" 1)).m =
      some ⟨"global", none, ⟨"global", 1, [("global_0", 1)]⟩⟩ ∧
    alookup "global_0"
      ((⟨"global", none, ⟨"global", 1, [("global_0", 1)]⟩⟩ :
        Entry Nat Nat)).localSubs.listeners ≠ some 7 :=
  ⟨Reachable.step (Reachable.step Reachable.new _) _, by decide, by decide, by decide⟩

/-- C1 (amended): fan-out consistency holds at every reachable state for
every entry except one named by the literal key `"global"`: for every
listener `gfn` registered in the global registry under identifier `sk`,
every entry whose key is not `"global"` also has `gfn` registered in its
local registry under the same `sk`.  (An entry named `"global"` mints
local identifiers in the same `"global_{n}"` shape as the global registry
and can overwrite a forwarded registration.)  The invariant is
(re)established both when a global subscription is forwarded into every
existing entry and when a newly created entry receives every current
global listener. -/
theorem C1_fanout_amended (ps : PubSub T F) (hr : Reachable ps) :
    ∀ sk gfn, alookup sk ps.s.listeners = some gfn →
    ∀ k e, alookup k ps.m = some e → k ≠ "global" →
    alookup sk e.localSubs.listeners = some gfn :=
  (Inv_of_Reachable hr).fan

theorem C1_fanout_amended_witness :
    alookup "global_0"
      ((⟨"a", some 3, ⟨"a", 0, [("global_0", 5)]⟩⟩ :
        Entry Nat Nat)).localSubs.listeners = some 5 :=
  C1_fanout_amended
    (applyOp (applyOp (PubSub.New (T := Nat) (F := Nat)) (Op.sub "*" 5))
      (Op.put "a" 3))
    (Reachable.step (Reachable.step Reachable.new _) _)
    "global_0" 5 (by decide) "a" _ (by decide) (by decide)

/-- C2: global unsubscribe: for an id whose prefix before the first `"_"`
is `"global"`, `Unsub(id)` with the id absent from the global registry
logs, returns `false` and changes nothing; with the id present it removes
it from the global registry, forward-removes the same id from every
current entry's local registry, and returns `true`. -/
theorem C2_global_unsub (ps : PubSub T F) (hr : Reachable ps) (id : String)
    (hpre : entryKeyOf id = "global") :
    (alookup id ps.s.listeners = none →
      ps.Unsub id = (ps, [Event.log "Could not unsub key!"], false)) ∧
    (∀ gfn, alookup id ps.s.listeners = some gfn →
      (ps.Unsub id).2.2 = true ∧
      alookup id (ps.Unsub id).1.s.listeners = none ∧
      (∀ k e, alookup k (ps.Unsub id).1.m = some e →
        alookup id e.localSubs.listeners = none)) := by
  have hI := Inv_of_Reachable hr
  constructor
  · intro h
    rw [PubSub_Unsub_global hpre, PubSub_unsub_absent h]
  · intro gfn h
    rw [PubSub_Unsub_global hpre, PubSub_unsub_present h]
    refine ⟨rfl, ?_, ?_⟩
    · have : alookup id (aerase id ps.s.listeners) = none :=
        alookup_aerase_self hI.gnd
      exact this
    · intro k e hke
      have hke' : alookup k (mapEntries (fun e => (e.Unsub id).1) ps.m) =
          some e := hke
      rw [alookup_mapEntries] at hke'
      match hm2 : alookup k ps.m with
      | none => rw [hm2] at hke'; simp at hke'
      | some e0 =>
        rw [hm2] at hke'
        obtain rfl : (e0.Unsub id).1 = e := by simpa using hke'
        have hnd0 := hI.elnd _ (alookup_some_mem hm2)
        simp only [Entry.Unsub, Subber.Unsub]
        match h0 : alookup id e0.localSubs.listeners with
        | none => simpa using h0
        | some _ => simpa using alookup_aerase_self hnd0

theorem C2_global_unsub_witness :
    entryKeyOf "global_0" = "global" ∧
    (((applyOp (PubSub.New (T := Nat) (F := Nat)) (Op.sub "*" 5)).Unsub
        "global_0").2.2 = true ∧
      alookup "global_0"
        ((applyOp (PubSub.New (T := Nat) (F := Nat)) (Op.sub "*" 5)).Unsub
          "global_0").1.s.listeners = none ∧
      (∀ k e, alookup k
          ((applyOp (PubSub.New (T := Nat) (F := Nat)) (Op.sub "*" 5)).Unsub
            "global_0").1.m = some e →
        alookup "global_0" e.localSubs.listeners = none)) :=
  ⟨by decide,
   (C2_global_unsub _ (Reachable.step Reachable.new _) "global_0" (by decide)).2
     5 (by decide)⟩

/-- C3: non-global unsubscribe routing: `Unsub(id)` parses the entry key
as the prefix of `id` before the first `"_"`; when that prefix is not
`"global"` and no entry of that name exists it returns `false` leaving
the state unchanged, and when such an entry exists it delegates to that
entry's `Unsub(id)` and returns its result. -/
theorem C3_unsub_routing (ps : PubSub T F) (id : String)
    (hg : entryKeyOf id ≠ "global") :
    (alookup (entryKeyOf id) ps.m = none → ps.Unsub id = (ps, [], false)) ∧
    (∀ e, alookup (entryKeyOf id) ps.m = some e →
      ps.Unsub id =
        (⟨aupdate (entryKeyOf id) (e.Unsub id).1 ps.m, ps.s⟩, [],
         (e.Unsub id).2)) :=
  ⟨fun h => PubSub_Unsub_of_absent hg h, fun _ h => PubSub_Unsub_of_present hg h⟩

theorem C3_unsub_routing_witness :
    entryKeyOf "a_0" ≠ "global" ∧
    alookup (entryKeyOf "a_0") (PubSub.New (T := Nat) (F := Nat)).m = none ∧
    (PubSub.New (T := Nat) (F := Nat)).Unsub "a_0" = (PubSub.New, [], false) :=
  ⟨by decide, by decide,
   (C3_unsub_routing PubSub.New "a_0" (by decide)).1 (by decide)⟩

/-- C6: `Delete(k)` on an absent key returns `false` with no observable
side effect; on a present key it first notifies every listener of that
entry (global-forwarded and local alike) with the null closed sentinel
for the entry's key, then removes the entry from the map (so the key no
longer resolves) and returns `true`. -/
theorem C6_delete (ps : PubSub T F) (hr : Reachable ps) (k : String) :
    (alookup k ps.m = none → ps.Delete k = (ps, [], false)) ∧
    (∀ e, alookup k ps.m = some e →
      ps.Delete k =
        (⟨aerase k ps.m, ps.s⟩,
         e.localSubs.listeners.map (fun q => Event.invoke q.2 none e.key),
         true) ∧
      alookup k (ps.Delete k).1.m = none) := by
  have hI := Inv_of_Reachable hr
  constructor
  · exact fun h => PubSub_Delete_absent h
  · intro e h
    constructor
    · rw [PubSub_Delete_present h]
      rfl
    · rw [PubSub_Delete_present h]
      exact alookup_aerase_self hI.mnd

theorem C6_delete_witness :
    alookup "a" (applyOp (PubSub.New (T := Nat) (F := Nat)) (Op.sub "a" 4)).m =
      some ⟨"a", none, ⟨"a", 1, [("a_0", 4)]⟩⟩ ∧
    ((applyOp (PubSub.New (T := Nat) (F := Nat)) (Op.sub "a" 4)).Delete "a" =
      (⟨aerase "a" (applyOp (PubSub.New (T := Nat) (F := Nat))
          (Op.sub "a" 4)).m,
        (applyOp (PubSub.New (T := Nat) (F := Nat)) (Op.sub "a" 4)).s⟩,
       (Subber.listeners ⟨"a", 1, [("a_0", (4:Nat))]⟩).map
         (fun q => Event.invoke q.2 none "a"),
       true) ∧
     alookup "a" ((applyOp (PubSub.New (T := Nat) (F := Nat))
       (Op.sub "a" 4)).Delete "a").1.m = none) :=
  ⟨by decide,
   (C6_delete _ (Reachable.step Reachable.new _) "a").2
     ⟨"a", none, ⟨"a", 1, [("a_0", 4)]⟩⟩ (by decide)⟩

/-- C9: keys containing `"_"` break unsubscription: for every key `k`
containing `"_"` (other than the reserved `"*"`) and every listener `fn`,
the id returned by `Sub(k, fn)` has the form `"{k}_{n}"`, so `Unsub(id)`
parses the entry key as the prefix of `k` before its first `"_"` — a
different name than `k`.  When no entry of that name exists, `Unsub(id)`
returns `false` and removes nothing (when the prefix is the literal
`"global"` the call routes to the global registry, where the id — whose
namespace contains an underscore — is likewise unknown, with the same
observable outcome), and `fn` remains registered: a subsequent
`Put(k, v)` still invokes `fn`. -/
theorem C9_underscore_keys (ps : PubSub T F) (hr : Reachable ps) (k : String)
    (fn : F) (v : T)
    (hu : '_' ∈ k.data) (hstar : k ≠ "*")
    (habs : alookup (entryKeyOf k) ((ps.Sub k fn).1).m = none) :
    (∃ n, (ps.Sub k fn).2 = mkId k n) ∧
    entryKeyOf (ps.Sub k fn).2 = entryKeyOf k ∧
    entryKeyOf (ps.Sub k fn).2 ≠ k ∧
    ((ps.Sub k fn).1.Unsub (ps.Sub k fn).2).1 = (ps.Sub k fn).1 ∧
    ((ps.Sub k fn).1.Unsub (ps.Sub k fn).2).2.2 = false ∧
    Event.invoke fn (some v) k ∈ ((ps.Sub k fn).1.Put k v).2 := by
  have hI := Inv_of_Reachable hr
  obtain ⟨hI', hs, hlook, hkey, hns, hnd, hfan⟩ :=
    Inv_createEntry hI hstar
  have hkg : k ≠ "global" := by
    intro hh
    rw [hh] at hu
    exact (by decide : '_' ∉ ("global" : String).data) hu
  have hid : (ps.Sub k fn).2 = mkId k (ps.createEntry k).2.localSubs.counter := by
    rw [PubSub_Sub_of_ne hstar]
    show (((ps.createEntry k).2.Sub fn none)).2 = _
    simp [Entry.Sub, Subber.Sub, hns]
  have hpre2 : entryKeyOf (ps.Sub k fn).2 = entryKeyOf k := by
    rw [hid]
    exact entryKeyOf_mkId_of_underscore hu _
  have hs1 : ((ps.Sub k fn).1).s = ps.s := by
    rw [PubSub_Sub_of_ne hstar]
    exact hs
  have hunsub : ((ps.Sub k fn).1.Unsub (ps.Sub k fn).2).1 = (ps.Sub k fn).1 ∧
      ((ps.Sub k fn).1.Unsub (ps.Sub k fn).2).2.2 = false := by
    by_cases hg : entryKeyOf k = "global"
    · have hgid : entryKeyOf (ps.Sub k fn).2 = "global" := by
        rw [hpre2]; exact hg
      have habsg : alookup ((ps.Sub k fn).2) ((ps.Sub k fn).1).s.listeners =
          none := by
        rw [hs1]
        cases hl : alookup ((ps.Sub k fn).2) ps.s.listeners with
        | none => rfl
        | some gfn =>
          exfalso
          obtain ⟨m, hm⟩ := global_id_shape hI hl
          rw [hid] at hm
          exact hkg (mkId_eq_mkId_iff hm)
      rw [PubSub_Unsub_global hgid, PubSub_unsub_absent habsg]
      exact ⟨rfl, rfl⟩
    · have hg2 : entryKeyOf (ps.Sub k fn).2 ≠ "global" := by
        rw [hpre2]; exact hg
      have habs2 : alookup (entryKeyOf (ps.Sub k fn).2) ((ps.Sub k fn).1).m =
          none := by
        rw [hpre2]; exact habs
      rw [PubSub_Unsub_of_absent hg2 habs2]
      exact ⟨rfl, rfl⟩
  refine ⟨⟨_, hid⟩, hpre2, ?_, hunsub.1, hunsub.2, ?_⟩
  · rw [hpre2]
    exact entryKeyOf_ne_self_of_underscore hu
  · have hm1 : alookup k ((ps.Sub k fn).1).m =
        some ((ps.createEntry k).2.Sub fn none).1 := by
      rw [PubSub_Sub_of_ne hstar]
      exact alookup_aupdate_self
    have hkey1 : ((ps.createEntry k).2.Sub fn none).1.key = k := by
      show ((ps.createEntry k).2).key = k
      exact hkey
    have hmem : ((ps.Sub k fn).2, fn) ∈
        ((ps.createEntry k).2.Sub fn none).1.localSubs.listeners := by
      rw [PubSub_Sub_of_ne hstar]
      show (((ps.createEntry k).2.Sub fn none).2, fn) ∈ _
      simp only [Entry.Sub, Subber.Sub]
      exact self_mem_aupdate
    rw [PubSub_Put_of_ne hstar, createEntry_of_present hm1]
    show Event.invoke fn (some v) k ∈
      ((((ps.createEntry k).2.Sub fn none).1).Put v).2
    have hput : ((((ps.createEntry k).2.Sub fn none).1).Put v).2 =
        ((ps.createEntry k).2.Sub fn none).1.localSubs.listeners.map
          (fun p => Event.invoke p.2 (some v)
            (((ps.createEntry k).2.Sub fn none).1.key)) := rfl
    rw [hput, hkey1]
    exact List.mem_map_of_mem _ hmem

theorem C9_underscore_keys_witness :
    ('_' ∈ ("a_b" : String).data ∧ ("a_b" : String) ≠ "*" ∧
      alookup (entryKeyOf "a_b")
        (((PubSub.New (T := Nat) (F := Nat)).Sub "a_b" 4).1).m = none) ∧
    ((∃ n, ((PubSub.New (T := Nat) (F := Nat)).Sub "a_b" 4).2 = mkId "a_b" n) ∧
      entryKeyOf ((PubSub.New (T := Nat) (F := Nat)).Sub "a_b" 4).2 =
        entryKeyOf "a_b" ∧
      entryKeyOf ((PubSub.New (T := Nat) (F := Nat)).Sub "a_b" 4).2 ≠ "a_b" ∧
      (((PubSub.New (T := Nat) (F := Nat)).Sub "a_b" 4).1.Unsub
          (((PubSub.New (T := Nat) (F := Nat)).Sub "a_b" 4).2)).1 =
        ((PubSub.New (T := Nat) (F := Nat)).Sub "a_b" 4).1 ∧
      (((PubSub.New (T := Nat) (F := Nat)).Sub "a_b" 4).1.Unsub
          (((PubSub.New (T := Nat) (F := Nat)).Sub "a_b" 4).2)).2.2 = false ∧
      Event.invoke 4 (some 9) "a_b" ∈
        (((PubSub.New (T := Nat) (F := Nat)).Sub "a_b" 4).1.Put "a_b" 9).2) :=
  ⟨⟨by decide, by decide, by decide⟩,
   C9_underscore_keys PubSub.New Reachable.new "a_b" 4 9
     (by decide) (by decide) (by decide)⟩

end Claims

end PubSubTS
